import Mathlib

/-!
Verification of the polyglot dependency-extraction engine in `src/main.py`.

The Python program is shallowly embedded: each Python function becomes a Lean
function of the same name, file contents become explicit values carried by a
`FileEntry`, and the standard-library parsing capabilities (`json.load`,
`toml.load`) are modelled as pre-parsed channels of type `Except`, where the
error case stands for any exception raised while opening or parsing the file
(the Python code catches every exception at the parser boundary).

Conventions of the embedding:
* A directory walk is a list of `FileEntry` in walk order.
* Python `str.strip()` is `pyStrip`, `str.split()` is `pySplitWs`,
  `for line in f` iteration is `pyLines` (splitting the raw content on
  newline characters; each consumer of a line immediately strips it or
  matches a pattern unaffected by the trailing newline, so the difference
  between keeping and removing it is invisible).
* Python regular expressions used by the program are translated into
  character-level matchers with the same backtracking behaviour; each matcher
  is documented with the regex it implements.  All string helpers are written
  by structural recursion over `List Char` so that closed statements can be
  settled by `decide`.
-/

namespace DepScan

/-- A dependency record, `{'name': ..., 'version': ..., 'source': ...}` in the
Python code.  `none` is Python `None`; JSON/TOML version values that are not
strings are carried as their rendered text (they never influence any claim). -/
structure DependencyRecord where
  name : String
  version : Option String
  source : String
deriving DecidableEq, Repr

/-- Errors raised while reading a file (`OSError`, `UnicodeDecodeError`, ...). -/
inductive ReadError where
  | permission
  | vanished
  | ioError
deriving DecidableEq, Repr

/-! ### Small Python-string helpers -/

/-- Python `str.strip()`: remove leading and trailing whitespace. -/
def pyStrip (s : String) : String :=
  String.mk (((s.toList.dropWhile Char.isWhitespace).reverse.dropWhile
    Char.isWhitespace).reverse)

/-- Consume a literal sequence of characters, returning the remainder. -/
def dropLit : List Char → List Char → Option (List Char)
  | [], cs => some cs
  | _ :: _, [] => none
  | l :: ls, c :: cs => if c == l then dropLit ls cs else none

/-- Python `str.startswith(pre)`. -/
def pyStartsWith (s pre : String) : Bool :=
  (dropLit pre.toList s.toList).isSome

def pyLinesAux (accRev : List Char) : List Char → List String
  | [] => [String.mk accRev.reverse]
  | c :: cs =>
    if c == '\n' then String.mk accRev.reverse :: pyLinesAux [] cs
    else pyLinesAux (c :: accRev) cs

/-- Python `for line in f`: the lines of a file's raw content (split on the
newline character; a trailing newline yields a final empty line, which every
consumer in the program ignores, matching Python's iteration that keeps the
newline attached instead). -/
def pyLines (s : String) : List String := pyLinesAux [] s.toList

def pySplitWsAux (accRev : List Char) : List Char → List String
  | [] => if accRev.isEmpty then [] else [String.mk accRev.reverse]
  | c :: cs =>
    if c.isWhitespace then
      if accRev.isEmpty then pySplitWsAux [] cs
      else String.mk accRev.reverse :: pySplitWsAux [] cs
    else pySplitWsAux (c :: accRev) cs

/-- Python `str.split()` with no argument: split on runs of whitespace,
discarding empty pieces. -/
def pySplitWs (s : String) : List String := pySplitWsAux [] s.toList

/-- Python `str.strip('()')`: remove every leading and trailing parenthesis. -/
def pyStripParens (s : String) : String :=
  let isPar : Char → Bool := fun c => c == '(' || c == ')'
  String.mk (((s.toList.dropWhile isPar).reverse.dropWhile isPar).reverse)

/-- Regex `\s+`: require at least one whitespace character, then consume the
whole whitespace run (greedy; no pattern here ever backtracks into it). -/
def wsPlus : List Char → Option (List Char)
  | [] => none
  | c :: cs => if c.isWhitespace then some (cs.dropWhile (·.isWhitespace)) else none

/-- Python regex `\w` (the inputs of interest are ASCII). -/
def isWordChar (c : Char) : Bool := c.isAlphanum || c == '_'

/-- A single or double quote character. -/
def isQuote (c : Char) : Bool := c == '\'' || c == '"'

/-! ### `parse_python_file`, `requirements.txt` branch (main.py lines 66-77) -/

/-- The alternation `==|>=|<=|>|<|~=|!=` of `re.split` in source order:
try to consume one operator at the current position. -/
def reqOpHere (cs : List Char) : Option (List Char) :=
  (dropLit ['=', '='] cs) <|> (dropLit ['>', '='] cs) <|> (dropLit ['<', '='] cs) <|>
  (dropLit ['>'] cs) <|> (dropLit ['<'] cs) <|>
  (dropLit ['~', '='] cs) <|> (dropLit ['!', '='] cs)

/-- `re.split(r'==|>=|<=|>|<|~=|!=', line, 1)`: scan left to right for the
first position where one of the operators matches (alternatives tried in
source order), split once there. -/
def reqSplitAux (accRev : List Char) : List Char → String × Option String
  | [] => (String.mk accRev.reverse, none)
  | c :: cs =>
    match reqOpHere (c :: cs) with
    | some rest => (String.mk accRev.reverse, some (String.mk rest))
    | none => reqSplitAux (c :: accRev) cs

def reqSplit (s : String) : String × Option String :=
  reqSplitAux [] s.toList

/-- One line of a `requirements.txt` file: skip blank and `#` lines, else
split on the first operator; name and version are stripped. -/
def reqLineRecord (src : String) (l : String) : Option DependencyRecord :=
  let t := pyStrip l
  if t ≠ "" ∧ ¬ pyStartsWith t "#" then
    match reqSplit t with
    | (name, some ver) => some ⟨pyStrip name, some (pyStrip ver), src⟩
    | (name, none) => some ⟨pyStrip name, none, src⟩
  else none

/-- The `requirements.txt` loop of `parse_python_file`, appending one record
per accepted line. -/
def parseReqLines (src : String) : List String → List DependencyRecord
  | [] => []
  | l :: ls =>
    match reqLineRecord src l with
    | some r => r :: parseReqLines src ls
    | none => parseReqLines src ls

/-! ### `parse_ruby_file`, `Gemfile.lock` branch (main.py lines 131-150) -/

/-- The `Gemfile.lock` state machine: `in_gems` becomes true at a stripped
line equal to `GEMS`; inside the block, `specs:` lines are skipped, a blank
line breaks out of the whole loop, and any other line with at least two
whitespace-separated tokens yields a record whose version has surrounding
parentheses stripped. -/
def gemfileLockLines (inGems : Bool) : List String → List DependencyRecord
  | [] => []
  | l :: ls =>
    let t := pyStrip l
    if t == "GEMS" then gemfileLockLines true ls
    else if inGems && pyStartsWith t "specs:" then gemfileLockLines inGems ls
    else if inGems && t == "" then []
    else if inGems then
      match pySplitWs t with
      | name :: ver :: _ =>
        ⟨name, some (pyStripParens ver), "Gemfile.lock"⟩ :: gemfileLockLines inGems ls
      | _ => gemfileLockLines inGems ls
    else gemfileLockLines inGems ls

/-! ### `detect_language` (main.py lines 11-37) -/

/-- Python `str.lower()` (the extensions involved are ASCII). -/
def pyLower (s : String) : String := String.mk (s.toList.map Char.toLower)

/-- `os.path.splitext(file)[1]` on a bare filename: the extension starts at
the last dot, except that a dot-only leading run does not begin an extension
(`.bashrc` and `..py` have no extension). -/
def extOf (name : String) : String :=
  let cs := name.toList
  let extRev := cs.reverse.takeWhile (· ≠ '.')
  if extRev.length == cs.length then ""
  else
    let sepIndex := cs.length - extRev.length - 1
    if sepIndex == 0 then ""
    else if (cs.take sepIndex).all (· == '.') then ""
    else String.mk ('.' :: extRev.reverse)

/-- The `language_extensions` table, in declaration order. -/
def languageExtensions : List (String × List String) :=
  [("Python", [".py"]),
   ("JavaScript", [".js", ".jsx"]),
   ("Java", [".java"]),
   ("Ruby", [".rb"]),
   ("Go", [".go"]),
   ("C", [".c", ".h"]),
   ("C++", [".cpp", ".hpp", ".cc"]),
   ("TypeScript", [".ts", ".tsx"]),
   ("PHP", [".php"]),
   ("Rust", [".rs"])]

/-- How many walked filenames have a (lowercased) extension in `exts`. -/
def langCount (files : List String) (exts : List String) : Nat :=
  files.countP (fun f => exts.contains (pyLower (extOf f)))

/-- The `counts` dictionary after the walk, in table order. -/
def langCounts (files : List String) : List (String × Nat) :=
  languageExtensions.map (fun p => (p.1, langCount files p.2))

/-- `sum(counts.values())`. -/
def sumCounts (files : List String) : Nat :=
  ((langCounts files).map Prod.snd).sum

/-- The fold performed by Python's `max(counts, key=counts.get)`: keep the
current best, replacing it only on a strictly greater count, so the first
key attaining the maximum wins. -/
def pyMaxGo (best : String × Nat) : List (String × Nat) → String × Nat
  | [] => best
  | p :: rest => pyMaxGo (if p.2 > best.2 then p else best) rest

/-- `max(counts, key=counts.get)` over a non-empty dictionary. -/
def pyMaxFirst : List (String × Nat) → Option String
  | [] => none
  | p :: rest => some (pyMaxGo p rest).1

/-- `detect_language`: count files per language, return `None` when every
count is zero, else the first language of the table with the maximal count.
The input is the list of walked filenames. -/
def detect_language (files : List String) : Option String :=
  if sumCounts files == 0 then none else pyMaxFirst (langCounts files)

/-! ### Parsed-content values

`json.load` and `toml.load` are standard-library capabilities; their results
are modelled as values of the following types.  Numbers are carried as
integers and floating-point values are out of scope (no claim involves
them). -/

/-- A parsed JSON value. -/
inductive JValue where
  | obj (fields : List (String × JValue))
  | arr (items : List JValue)
  | str (s : String)
  | num (n : Int)
  | bool (b : Bool)
  | null

/-- A parsed TOML value (`toml.load` yields a dictionary at top level, so a
parsed document is a `List (String × TValue)`). -/
inductive TValue where
  | str (s : String)
  | int (n : Int)
  | bool (b : Bool)
  | arr (items : List TValue)
  | table (fields : List (String × TValue))

/-- Key lookup in a parsed-object field list (Python `dict` lookup; the lists
produced by `json.load`/`toml.load` have distinct keys, first match wins). -/
def lookupField {α : Type} (k : String) : List (String × α) → Option α
  | [] => none
  | (k', v) :: rest => if k' == k then some v else lookupField k rest

mutual
/-- Python `str(value)` for a TOML value: strings unchanged, `True`/`False`
for booleans, decimal for integers, `repr`-style rendering for containers
(quote-escaping corners of `repr` are irrelevant: no claim depends on the
rendering of containers). -/
def pyToStr : TValue → String
  | .str s => s
  | .int n => toString n
  | .bool b => if b then "True" else "False"
  | .arr vs => "[" ++ joinComma (pyReprList vs) ++ "]"
  | .table fs => "\x7b" ++ joinComma (pyReprTable fs) ++ "\x7d"

/-- Python `repr(value)` for a TOML value (strings get quotes). -/
def pyReprT : TValue → String
  | .str s => "'" ++ s ++ "'"
  | .int n => toString n
  | .bool b => if b then "True" else "False"
  | .arr vs => "[" ++ joinComma (pyReprList vs) ++ "]"
  | .table fs => "\x7b" ++ joinComma (pyReprTable fs) ++ "\x7d"

def pyReprList : List TValue → List String
  | [] => []
  | v :: vs => pyReprT v :: pyReprList vs

def pyReprTable : List (String × TValue) → List String
  | [] => []
  | (k, v) :: fs => ("'" ++ k ++ "': " ++ pyReprT v) :: pyReprTable fs

def joinComma : List String → String
  | [] => ""
  | [s] => s
  | s :: rest => s ++ ", " ++ joinComma rest
end

/-- A file met during the walk.  `dir`/`name` are the `os.walk` root and
filename (`os.path.basename` of the joined path is `name`).  `text` is the
result of opening and reading the file; `json` and `toml` are the results of
`json.load`/`toml.load`, whose error case stands for any exception raised
while opening, reading or parsing (which the manifest parsers catch). -/
structure FileEntry where
  dir : String
  name : String
  text : Except ReadError String
  json : Except String JValue
  toml : Except String (List (String × TValue))

/-! ### `find_dependency_files` (main.py lines 39-58) -/

/-- The `dependency_files_map` table. -/
def dependency_files_map : List (String × List String) :=
  [("Python", ["requirements.txt", "Pipfile", "pyproject.toml"]),
   ("JavaScript", ["package.json", "yarn.lock"]),
   ("Java", ["pom.xml", "build.gradle"]),
   ("Ruby", ["Gemfile"]),
   ("Go", ["go.mod"]),
   ("Rust", ["Cargo.toml"]),
   ("TypeScript", ["package.json"])]

/-- `dependency_files_map.get(language, [])`. -/
def manifestTargets (language : String) : List String :=
  (lookupField language dependency_files_map).getD []

/-- `find_dependency_files`: every walked file whose name is in the
language's target list, in walk order. -/
def find_dependency_files (fs : List FileEntry) (language : String) :
    List FileEntry :=
  fs.filter (fun fe => fe.name ∈ manifestTargets language)

/-! ### `parse_python_file`, TOML branches (main.py lines 79-102)

Python's `'tool' in data and 'poetry' in data['tool']` is modelled by
requiring `data['tool']` to be a table containing the key `poetry`: in every
other case the Python code either skips the branch or raises a `TypeError`
that the boundary handler catches, and the file contributes zero records
either way.  Likewise a non-table value where `.items()` is called raises an
`AttributeError` that is caught, keeping the records appended so far. -/

/-- `str(spec) if not isinstance(spec, dict) else None`. -/
def pyprojectVersion : TValue → Option String
  | .table _ => none
  | v => some (pyToStr v)

def pyprojectDeps (src : String) : List (String × TValue) → List DependencyRecord
  | [] => []
  | (nm, spec) :: rest =>
    if nm == "python" then pyprojectDeps src rest
    else ⟨nm, pyprojectVersion spec, src⟩ :: pyprojectDeps src rest

/-- `str(spec) if spec != '*' else None` (only the string `*` compares equal
to `'*'`). -/
def pipfileVersion : TValue → Option String
  | .str s => if s == "*" then none else some s
  | v => some (pyToStr v)

def pipfileEntries (src : String) : List (String × TValue) → List DependencyRecord
  | [] => []
  | (nm, spec) :: rest => ⟨nm, pipfileVersion spec, src⟩ :: pipfileEntries src rest

def pipfileSections (src : String) (data : List (String × TValue)) :
    List String → List DependencyRecord → List DependencyRecord
  | [], acc => acc
  | sec :: rest, acc =>
    match (lookupField sec data).getD (.table []) with
    | .table deps => pipfileSections src data rest (acc ++ pipfileEntries src deps)
    | _ => acc

def parse_python_file (tomlOk : Bool) (fe : FileEntry) : List DependencyRecord :=
  if fe.name == "requirements.txt" then
    match fe.text with
    | .error _ => []
    | .ok s => parseReqLines fe.name (pyLines s)
  else if fe.name == "pyproject.toml" && tomlOk then
    match fe.toml with
    | .error _ => []
    | .ok data =>
      match lookupField "tool" data with
      | some (.table tool) =>
        match lookupField "poetry" tool with
        | some (.table poetry) =>
          match (lookupField "dependencies" poetry).getD (.table []) with
          | .table deps => pyprojectDeps fe.name deps
          | _ => []
        | _ => []
      | _ => []
  else if fe.name == "Pipfile" && tomlOk then
    match fe.toml with
    | .error _ => []
    | .ok data => pipfileSections fe.name data ["packages", "dev-packages"] []
  else []

/-! ### `parse_ruby_file`, `Gemfile` branch (main.py lines 116-129) -/

/-- `re.match(r"gem\s+['\"]([^'\"]+)['\"]", line)`: the quoted gem name. -/
def gemNameMatch (t : String) : Option String :=
  match (dropLit "gem".toList t.toList).bind wsPlus with
  | some (q :: rest) =>
    if isQuote q then
      let nm := rest.takeWhile (fun c => !isQuote c)
      if nm.isEmpty then none
      else
        match rest.drop nm.length with
        | c :: _ => if isQuote c then some (String.mk nm) else none
        | [] => none
    else none
  | _ => none

/-- The tail `\s*['\"]([^'\"]+)['\"]` of the version search, tried right
after a comma. -/
def gemVerAt (cs : List Char) : Option String :=
  match cs.dropWhile (·.isWhitespace) with
  | q :: rest =>
    if isQuote q then
      let v := rest.takeWhile (fun c => !isQuote c)
      if v.isEmpty then none
      else
        match rest.drop v.length with
        | c :: _ => if isQuote c then some (String.mk v) else none
        | [] => none
    else none
  | [] => none

/-- `re.search(r",\s*['\"]([^'\"]+)['\"]", line)`: try the pattern at each
position left to right. -/
def gemVerScan : List Char → Option String
  | [] => none
  | c :: cs =>
    if c == ',' then
      match gemVerAt cs with
      | some v => some v
      | none => gemVerScan cs
    else gemVerScan cs

def gemfileLines (src : String) : List String → List DependencyRecord
  | [] => []
  | l :: ls =>
    let t := pyStrip l
    if pyStartsWith t "gem " then
      match gemNameMatch t with
      | some nm => ⟨nm, gemVerScan t.toList, src⟩ :: gemfileLines src ls
      | none => gemfileLines src ls
    else gemfileLines src ls

def parse_ruby_file (fe : FileEntry) : List DependencyRecord :=
  if fe.name == "Gemfile" then
    match fe.text with
    | .error _ => []
    | .ok s => gemfileLines fe.name (pyLines s)
  else if fe.name == "Gemfile.lock" then
    match fe.text with
    | .error _ => []
    | .ok s => gemfileLockLines false (pyLines s)
  else []

/-! ### `parse_java_file` (main.py lines 158-201) -/

/-- The optional `(?::([^'\"]+))?['\"]` tail after group and artifact: first
try the version group, else require the closing quote directly. -/
def gradleTail (g a : String) (after : List Char) :
    Option (String × String × Option String) :=
  (match after with
   | ':' :: a2 =>
     let s3 := a2.takeWhile (fun c => !isQuote c)
     if s3.isEmpty then none
     else
       match a2.drop s3.length with
       | c :: _ => if isQuote c then some (g, a, some (String.mk s3)) else none
       | [] => none
   | _ => none)
  <|>
  (match after with
   | c :: _ => if isQuote c then some (g, a, none) else none
   | _ => none)

/-- Backtracking over the greedy artifact group `([^:]+)`: `pre2` is the
maximal colon-free run, tried from the longest candidate down. -/
def gradleSeg2 (g : String) (pre2 tail2 : List Char) :
    Nat → Option (String × String × Option String)
  | 0 => none
  | j + 1 =>
    match gradleTail g (String.mk (pre2.take (j + 1))) (pre2.drop (j + 1) ++ tail2) with
    | some r => some r
    | none => gradleSeg2 g pre2 tail2 j

/-- The coordinate `['\"]([^:]+):([^:]+)(?::([^'\"]+))?['\"]`. -/
def gradleCoord (cs : List Char) : Option (String × String × Option String) :=
  match cs with
  | q :: rest =>
    if isQuote q then
      let s1 := rest.takeWhile (· ≠ ':')
      if s1.isEmpty then none
      else
        match rest.drop s1.length with
        | ':' :: rest2 =>
          let pre2 := rest2.takeWhile (· ≠ ':')
          let tail2 := rest2.drop pre2.length
          if pre2.isEmpty then none
          else gradleSeg2 (String.mk s1) pre2 tail2 pre2.length
        | _ => none
    else none
  | [] => none

/-- `re.match(r"(implementation|compile|api)\s+['\"]...` on a stripped line:
the three keywords share no prefix, so the alternation commits to the one
that matches. -/
def gradleMatch (t : String) : Option (String × String × Option String) :=
  match (dropLit "implementation".toList t.toList).bind wsPlus with
  | some rest => gradleCoord rest
  | none =>
    match (dropLit "compile".toList t.toList).bind wsPlus with
    | some rest => gradleCoord rest
    | none =>
      match (dropLit "api".toList t.toList).bind wsPlus with
      | some rest => gradleCoord rest
      | none => none

def gradleLines (src : String) : List String → List DependencyRecord
  | [] => []
  | l :: ls =>
    match gradleMatch (pyStrip l) with
    | some (g, a, v) => ⟨g ++ ":" ++ a, v, src⟩ :: gradleLines src ls
    | none => gradleLines src ls

def parse_java_file (fe : FileEntry) : List DependencyRecord :=
  if fe.name == "pom.xml" then
    -- `ET` is an undefined name in main.py: nothing imports
    -- `xml.etree.ElementTree`, so `ET.parse(file_path)` raises `NameError`
    -- before any record is appended, and the boundary handler (line 198)
    -- returns the empty list for every pom.xml file.
    []
  else if fe.name == "build.gradle" || fe.name == "build.gradle.kts" then
    match fe.text with
    | .error _ => []
    | .ok s => gradleLines fe.name (pyLines s)
  else []

/-! ### `parse_go_mod` (main.py lines 204-237)

The nested `for` loop that consumes a `require (` block is a state machine:
`inBlock` is true between a `require (` line and the next `)` line. -/

def goModLines (inBlock : Bool) : List String → List DependencyRecord
  | [] => []
  | l :: ls =>
    let t := pyStrip l
    if inBlock then
      if t == ")" then goModLines false ls
      else if t ≠ "" && !pyStartsWith t "//" then
        match pySplitWs t with
        | name :: ver :: _ => ⟨name, some ver, "go.mod"⟩ :: goModLines true ls
        | _ => goModLines true ls
      else goModLines true ls
    else if pyStartsWith t "require (" then goModLines true ls
    else if pyStartsWith t "require" then
      match pySplitWs t with
      | _ :: name :: ver :: _ => ⟨name, some ver, "go.mod"⟩ :: goModLines false ls
      | _ => goModLines false ls
    else goModLines false ls

def parse_go_mod (fe : FileEntry) : List DependencyRecord :=
  match fe.text with
  | .error _ => []
  | .ok s => goModLines false (pyLines s)

/-! ### `parse_rust_cargo_toml` (main.py lines 239-259) -/

/-- `spec` directly when it is a string, else `spec.get('version')` of a
table (a non-string version value is carried as its rendered text), else
`None`. -/
def cargoVersionOf : TValue → Option String
  | .str s => some s
  | .table t =>
    (lookupField "version" t).map (fun v =>
      match v with
      | .str s => s
      | v => pyReprT v)
  | _ => none

def cargoEntries : List (String × TValue) → List DependencyRecord
  | [] => []
  | (nm, spec) :: rest => ⟨nm, cargoVersionOf spec, "Cargo.toml"⟩ :: cargoEntries rest

def cargoSections (data : List (String × TValue)) :
    List String → List DependencyRecord → List DependencyRecord
  | [], acc => acc
  | sec :: rest, acc =>
    match (lookupField sec data).getD (.table []) with
    | .table deps => cargoSections data rest (acc ++ cargoEntries deps)
    | _ => acc

def parse_rust_cargo_toml (tomlOk : Bool) (fe : FileEntry) : List DependencyRecord :=
  if !tomlOk then
    -- `toml` is `None` when the import failed; `toml.load` raises an
    -- `AttributeError` that the handler catches.
    []
  else
    match fe.toml with
    | .error _ => []
    | .ok data =>
      cargoSections data ["dependencies", "dev-dependencies", "build-dependencies"] []

/-! ### `parse_javascript_file` (main.py lines 262-277) -/

mutual
/-- Rendering of a JSON value, used only to carry non-string version values
as text (no claim depends on it). -/
def jsonRender : JValue → String
  | .obj fs => "\x7b" ++ joinComma (jsonRenderObj fs) ++ "\x7d"
  | .arr vs => "[" ++ joinComma (jsonRenderList vs) ++ "]"
  | .str s => "'" ++ s ++ "'"
  | .num n => toString n
  | .bool b => if b then "True" else "False"
  | .null => "None"

def jsonRenderList : List JValue → List String
  | [] => []
  | v :: vs => jsonRender v :: jsonRenderList vs

def jsonRenderObj : List (String × JValue) → List String
  | [] => []
  | (k, v) :: fs => ("'" ++ k ++ "': " ++ jsonRender v) :: jsonRenderObj fs
end

/-- The version value of a `package.json` entry, taken verbatim: JSON `null`
is Python `None`, strings are unchanged, anything else is carried as its
rendered text. -/
def jsVersionOf : JValue → Option String
  | .null => none
  | .str s => some s
  | v => some (jsonRender v)

def jsEntries (src : String) : List (String × JValue) → List DependencyRecord
  | [] => []
  | (nm, v) :: rest => ⟨nm, jsVersionOf v, src⟩ :: jsEntries src rest

def jsSections (src : String) (fields : List (String × JValue)) :
    List String → List DependencyRecord → List DependencyRecord
  | [], acc => acc
  | sec :: rest, acc =>
    match lookupField sec fields with
    | none => jsSections src fields rest acc
    | some (.obj d) => jsSections src fields rest (acc ++ jsEntries src d)
    | some _ =>
      -- `.items()` on a non-dict raises AttributeError: the handler keeps
      -- the records appended so far.
      acc

def parse_javascript_file (fe : FileEntry) : List DependencyRecord :=
  match fe.json with
  | .error _ => []
  | .ok (.obj fields) => jsSections fe.name fields ["dependencies", "devDependencies"] []
  | .ok _ =>
    -- `data.get` on a non-dict raises AttributeError, caught by the handler.
    []

/-! ### `parse_dependency_file` (main.py lines 279-292) -/

def parse_dependency_file (tomlOk : Bool) (fe : FileEntry) (language : String) :
    List DependencyRecord :=
  if language == "Python" then parse_python_file tomlOk fe
  else if language == "JavaScript" || language == "TypeScript" then
    parse_javascript_file fe
  else if language == "Go" then parse_go_mod fe
  else if language == "Rust" then parse_rust_cargo_toml tomlOk fe
  else if language == "Ruby" then parse_ruby_file fe
  else if language == "Java" then parse_java_file fe
  else []

/-! ### `extract_code_dependencies` (main.py lines 294-390)

Per-language token extraction.  The program's regexes are reproduced as
character matchers; a token is then normalized by Python `split(sep)[0]`
(characters before the first occurrence of the separator) — except for Java,
which uses `rsplit('.', 1)[0]`. -/

/-- Python `str.endswith(suffix)`. -/
def pyEndsWith (s suffix : String) : Bool :=
  (dropLit suffix.toList.reverse s.toList.reverse).isSome

/-- The characters before the first occurrence of `lit` (Python
`s.split(lit)[0]`). -/
def upToLit (lit : List Char) : List Char → List Char
  | [] => []
  | c :: cs => if (dropLit lit (c :: cs)).isSome then [] else c :: upToLit lit cs

def firstSegBy (lit : String) (s : String) : String :=
  String.mk (upToLit lit.toList s.toList)

/-- `^\s*(?:from|import)\s+([\w\.]+)` on one line, then `.split('.')[0]`
(the keywords share no prefix, so the alternation commits). -/
def pyImportTok (line : String) : Option String :=
  let cs := line.toList.dropWhile (·.isWhitespace)
  let afterKw :=
    match dropLit "from".toList cs with
    | some r => wsPlus r
    | none => (dropLit "import".toList cs).bind wsPlus
  match afterKw with
  | some body =>
    let tok := body.takeWhile (fun c => isWordChar c || c == '.')
    if tok.isEmpty then none else some (firstSegBy "." (String.mk tok))
  | none => none

/-- The capture `([\w.*]+)\s*;` of the Java import pattern. -/
def javaCaptureClass (cs : List Char) : Option String :=
  let tok := cs.takeWhile (fun c => isWordChar c || c == '.' || c == '*')
  if tok.isEmpty then none
  else
    match (cs.drop tok.length).dropWhile (·.isWhitespace) with
    | ';' :: _ => some (String.mk tok)
    | _ => none

/-- `^\s*import\s+(?:static\s+)?([\w.*]+)\s*;` on one line: the optional
`static` group is tried greedily and dropped on failure (backtracking). -/
def javaImportToken (line : String) : Option String :=
  let cs := line.toList.dropWhile (·.isWhitespace)
  match (dropLit "import".toList cs).bind wsPlus with
  | some r2 =>
    match (dropLit "static".toList r2).bind wsPlus with
    | some r4 =>
      match javaCaptureClass r4 with
      | some t => some t
      | none => javaCaptureClass r2
    | none => javaCaptureClass r2
  | none => none

/-- Python `full_class.rsplit('.', 1)[0]`: everything before the last dot
(the whole string when there is no dot). -/
def pyRsplitDot (s : String) : String :=
  match s.toList.reverse.dropWhile (· != '.') with
  | [] => s
  | _ :: preRev => String.mk preRev.reverse

/-- One line of Java source: only dotted imports contribute, normalized by
`rsplit('.', 1)[0]`.  (The `package` pattern of the source is also matched
but only writes a variable that is never read, so it is omitted.) -/
def javaLineDep (line : String) : Option String :=
  match javaImportToken line with
  | some fc => if fc.toList.contains '.' then some (pyRsplitDot fc) else none
  | none => none

/-- Lazy `(.+?)` up to a closing quote: capture at least one non-newline
character, closing at the earliest quote. -/
def rubyLazy (accRev : List Char) : List Char → Option String
  | [] => none
  | c :: cs =>
    if isQuote c && !accRev.isEmpty then some (String.mk accRev.reverse)
    else if c == '\n' then none
    else rubyLazy (c :: accRev) cs

def rubyQuoted (cs : List Char) : Option String :=
  match cs with
  | q :: rest => if isQuote q then rubyLazy [] rest else none
  | [] => none

/-- `^\s*(?:require|require_relative)\s+['\"](.+?)['\"]` on one line: the
`require` alternative is tried first; on failure of the rest of the pattern
the engine backtracks to `require_relative`. -/
def rubyLineTok (line : String) : Option String :=
  let cs := line.toList.dropWhile (·.isWhitespace)
  match dropLit "require".toList cs with
  | some r1 =>
    match (wsPlus r1).bind rubyQuoted with
    | some t => some t
    | none =>
      match dropLit "require_relative".toList cs with
      | some r2 => (wsPlus r2).bind rubyQuoted
      | none => none
  | none => none

/-- Lazy `(.+?)` up to a `"` or `)`: capture at least one non-newline
character, closing at the earliest terminator. -/
def goLazy (accRev : List Char) : List Char → Option (List Char)
  | [] => none
  | c :: cs =>
    if (c == '"' || c == ')') && !accRev.isEmpty then some accRev.reverse
    else if c == '\n' then none
    else goLazy (c :: accRev) cs

/-- `^\s*import\s+["(](.+?)[")]` via `pattern.search(line)` (the anchored
`^` restricts the search to the line start), followed by the post-processing
of the capture: strip, whitespace-split, remove `"` from the first token,
`split('/')[0]`.  (The `split('\n')` of the source is the identity on a
single line.) -/
def goLineDep (line : String) : Option String :=
  let cs := line.toList.dropWhile (·.isWhitespace)
  match (dropLit "import".toList cs).bind wsPlus with
  | some (q :: rest) =>
    if q == '"' || q == '(' then
      match goLazy [] rest with
      | some grp =>
        let imp := pyStrip (String.mk grp)
        if imp ≠ "" then
          match pySplitWs imp with
          | p0 :: _ =>
            some (firstSegBy "/" (String.mk (p0.toList.filter (· ≠ '"'))))
          | [] => none
        else none
      | none => none
    else none
  | _ => none

/-- `re.findall(r'^\s*use\s+([\w:]+)', content)` without `re.MULTILINE`:
`^` only matches at the start of the whole content, so there is at most one
match (the leading `\s*` may cross newlines). -/
def rustUseTok (content : String) : Option String :=
  let cs := content.toList.dropWhile (·.isWhitespace)
  match (dropLit "use".toList cs).bind wsPlus with
  | some body =>
    let tok := body.takeWhile (fun c => isWordChar c || c == ':')
    if tok.isEmpty then none else some (String.mk tok)
  | none => none

/-- `re.findall(r'^\s*extern\s+crate\s+([\w_]+)', content)` likewise
anchored at the content start. -/
def rustCrateTok (content : String) : Option String :=
  let cs := content.toList.dropWhile (·.isWhitespace)
  match (dropLit "extern".toList cs).bind wsPlus with
  | some r =>
    match (dropLit "crate".toList r).bind wsPlus with
    | some body =>
      let tok := body.takeWhile isWordChar
      if tok.isEmpty then none else some (String.mk tok)
    | none => none
  | none => none

/-- Tokens of one Rust file, `use` matches before `extern crate` matches,
each normalized by `split('::')[0]`. -/
def rustFileToks (content : String) : List String :=
  ((rustUseTok content).toList ++ (rustCrateTok content).toList).map
    (firstSegBy "::")

/-- Lazy capture for `require\(['\"](.+?)['\"]\)`: close at the earliest
quote that is immediately followed by `)`. -/
def jsLazyQuoteParen (accRev : List Char) : List Char → Option (String × List Char)
  | [] => none
  | c :: cs =>
    if isQuote c && !accRev.isEmpty then
      match cs with
      | ')' :: rest => some (String.mk accRev.reverse, rest)
      | _ => if c == '\n' then none else jsLazyQuoteParen (c :: accRev) cs
    else if c == '\n' then none
    else jsLazyQuoteParen (c :: accRev) cs

/-- Lazy capture for `from\s+['\"](.+?)['\"]` and `import\s+['\"](.+?)['\"]`:
close at the earliest quote. -/
def jsLazyQuote (accRev : List Char) : List Char → Option (String × List Char)
  | [] => none
  | c :: cs =>
    if isQuote c && !accRev.isEmpty then some (String.mk accRev.reverse, cs)
    else if c == '\n' then none
    else jsLazyQuote (c :: accRev) cs

def jsAlt1 (cs : List Char) : Option (String × List Char) :=
  match dropLit "require(".toList cs with
  | some (q :: rest) => if isQuote q then jsLazyQuoteParen [] rest else none
  | _ => none

def jsAltKw (kw : String) (cs : List Char) : Option (String × List Char) :=
  match (dropLit kw.toList cs).bind wsPlus with
  | some (q :: rest) => if isQuote q then jsLazyQuote [] rest else none
  | _ => none

/-- One attempt of the JS/TS pattern
`require\(['\"](.+?)['\"]\)|from\s+['\"](.+?)['\"]|import\s+['\"](.+?)['\"]`
at the current position, alternatives in source order; a successful match
returns the captured group and the remainder after the match. -/
def jsTryMatch (cs : List Char) : Option (String × List Char) :=
  jsAlt1 cs <|> jsAltKw "from" cs <|> jsAltKw "import" cs

def jsFindAllF : Nat → List Char → List String
  | 0, _ => []
  | _ + 1, [] => []
  | fuel + 1, c :: rest =>
    match jsTryMatch (c :: rest) with
    | some (tok, r) => tok :: jsFindAllF fuel r
    | none => jsFindAllF fuel rest

/-- `pattern.findall(content)`: scan left to right, restarting after each
match.  Every step consumes at least one character, so `length + 1` steps of
fuel are exact. -/
def jsFindAll (content : String) : List String :=
  jsFindAllF (content.length + 1) content.toList

/-- The shared per-language file loop: files with a matching extension are
opened and their tokens appended in walk order; a read failure propagates
(`extract_code_dependencies` has no exception handler). -/
def scanFold (extCheck : String → Bool) (extractToks : String → List String) :
    List FileEntry → Except ReadError (List String)
  | [] => .ok []
  | fe :: rest =>
    if extCheck fe.name then
      match fe.text with
      | .error e => .error e
      | .ok s =>
        match scanFold extCheck extractToks rest with
        | .error e => .error e
        | .ok more => .ok (extractToks s ++ more)
    else scanFold extCheck extractToks rest

def pySetAux (seen : List String) : List String → List String
  | [] => []
  | x :: xs => if x ∈ seen then pySetAux seen xs else x :: pySetAux (x :: seen) xs

/-- Python `set(...)`: iteration order of a Python set is unspecified; the
embedding keeps first-occurrence order.  No claim depends on this order,
only on membership. -/
def pySet (l : List String) : List String := pySetAux [] l

/-- The per-language `dependencies` token list of
`extract_code_dependencies` (the accumulating loops before the final
set-conversion). -/
def scanTokens (fs : List FileEntry) (language : String) :
    Except ReadError (List String) :=
  if language == "Python" then
      scanFold (fun n => pyEndsWith n ".py")
        (fun s => (pyLines s).filterMap pyImportTok) fs
    else if language == "JavaScript" || language == "TypeScript" then
      scanFold
        (fun n => pyEndsWith n ".js" || pyEndsWith n ".jsx" ||
          pyEndsWith n ".ts" || pyEndsWith n ".tsx")
        (fun s => (jsFindAll s).map (firstSegBy "/")) fs
    else if language == "Go" then
      scanFold (fun n => pyEndsWith n ".go")
        (fun s => (pyLines s).filterMap goLineDep) fs
    else if language == "Rust" then
      scanFold (fun n => pyEndsWith n ".rs") rustFileToks fs
    else if language == "Ruby" then
      scanFold (fun n => pyEndsWith n ".rb")
        (fun s => (pyLines s).filterMap (fun l => (rubyLineTok l).map (firstSegBy "/"))) fs
    else if language == "Java" then
      scanFold (fun n => pyEndsWith n ".java")
        (fun s => (pyLines s).filterMap javaLineDep) fs
    else .ok []

def extract_code_dependencies (fs : List FileEntry) (language : String) :
    Except ReadError (List DependencyRecord) :=
  match scanTokens fs language with
  | .error e => .error e
  | .ok deps => .ok ((pySet deps).map (fun n => ⟨n, none, "code"⟩))

/-! ### `main` (main.py lines 392-427) -/

def depKey (r : DependencyRecord) : String × String := (r.name, r.source)

/-- The deduplication loop of `main`: `seen` is the set of `(name, source)`
keys already kept; the first record with a given key wins. -/
def dedupDeps (seen : List (String × String)) :
    List DependencyRecord → List DependencyRecord
  | [] => []
  | d :: rest =>
    if depKey d ∈ seen then dedupDeps seen rest
    else d :: dedupDeps (depKey d :: seen) rest

/-- The aggregator: manifest records first, then code records, deduplicated. -/
def aggregate (manifest code : List DependencyRecord) : List DependencyRecord :=
  dedupDeps [] (manifest ++ code)

structure Report where
  language : String
  dependencies : List DependencyRecord
deriving DecidableEq, Repr

/-- `main` after argument parsing and the root-directory check: detect the
language (`.ok none` models the early `return` when none is detected), parse
every located manifest in discovery order, scan source files — whose read
failures propagate, aborting the run with no report — and deduplicate.
`tomlOk` records whether the optional `toml` import succeeded. -/
def main_report (tomlOk : Bool) (fs : List FileEntry) :
    Except ReadError (Option Report) :=
  match detect_language (fs.map (·.name)) with
  | none => .ok none
  | some language =>
    match extract_code_dependencies fs language with
    | .error e => .error e
    | .ok codeDeps =>
      .ok (some ⟨language,
        aggregate
          ((find_dependency_files fs language).map
            (fun fe => parse_dependency_file tomlOk fe language)).flatten
          codeDeps⟩)

/-! ### Spec-side definitions for the refinement comparisons -/

/-- An XML element tree, for stating what the `pom.xml` branch was meant to
produce. -/
inductive Xml where
  | elem (tag : String) (children : List Xml)
  | text (s : String)

/-- The first child element with the given tag. -/
def xmlChild (tag : String) : List Xml → Option (List Xml)
  | [] => none
  | .elem t ch :: rest => if t == tag then some ch else xmlChild tag rest
  | .text _ :: rest => xmlChild tag rest

/-- The text content of an element's children. -/
def xmlText : List Xml → String
  | [] => ""
  | .text s :: rest => s ++ xmlText rest
  | .elem _ _ :: rest => xmlText rest

mutual
def collectDepElems : Xml → List (List Xml)
  | .elem tag children =>
    (if tag == "dependency" then [children] else []) ++ collectDepElemsL children
  | .text _ => []

def collectDepElemsL : List Xml → List (List Xml)
  | [] => []
  | x :: xs => collectDepElems x ++ collectDepElemsL xs
end

/-- Follows the spec's words (refinement comparison, §4.3 of the spec): "for
every `dependency` element, name = `groupId:artifactId`, version = text of a
`version` child element if present, else unspecified".  A dependency element
missing either identifier is skipped (the spec presumes well-formed POMs).
This is what the dead `pom.xml` branch of `parse_java_file` was meant to
compute. -/
def pomDependenciesSpec (root : Xml) : List DependencyRecord :=
  (collectDepElems root).filterMap (fun ch =>
    match xmlChild "groupId" ch, xmlChild "artifactId" ch with
    | some g, some a =>
      some ⟨xmlText g ++ ":" ++ xmlText a, (xmlChild "version" ch).map xmlText,
        "pom.xml"⟩
    | _, _ => none)

/-- A well-formed single-dependency POM document. -/
def samplePomXml : Xml :=
  .elem "project"
    [.elem "dependencies"
      [.elem "dependency"
        [.elem "groupId" [.text "org.demo"],
         .elem "artifactId" [.text "lib"],
         .elem "version" [.text "1.0"]]]]

/-- The same POM as a walked file (its raw text is irrelevant to the code:
`ET.parse` raises `NameError` before reading it). -/
def samplePomEntry : FileEntry :=
  ⟨"proj", "pom.xml",
   .ok "<project xmlns=\"http://maven.apache.org/POM/4.0.0\"><dependencies><dependency><groupId>org.demo</groupId><artifactId>lib</artifactId><version>1.0</version></dependency></dependencies></project>",
   .error "not json", .error "not toml"⟩

/-- A Python source file whose read fails (permission denied or a decode
error). -/
def unreadablePy : FileEntry :=
  ⟨"proj", "app.py", .error .permission, .error "unreadable", .error "unreadable"⟩

/-- A manifest file whose read fails in the same way. -/
def unreadableReq : FileEntry :=
  ⟨"proj", "requirements.txt", .error .permission, .error "unreadable",
   .error "unreadable"⟩

/-- `requirements.txt` whose single line ends exactly at an operator. -/
def reqTrailingOp : FileEntry :=
  ⟨"proj", "requirements.txt", .ok "flask==", .error "not json", .error "not toml"⟩

/-- `package.json` declaring an empty-string version. -/
def pkgEmptyVersion : FileEntry :=
  ⟨"proj", "package.json", .ok "\x7b...\x7d",
   .ok (.obj [("dependencies", .obj [("left-pad", .str "")])]), .error "not toml"⟩

/-- The three-line requirements file from the claim. -/
def reqExample : FileEntry :=
  ⟨"proj", "requirements.txt", .ok "flask==2.0.1\n# comment\nrequests",
   .error "not json", .error "not toml"⟩

/-- A complete lock file with content after the blank line. -/
def lockExample : FileEntry :=
  ⟨"proj", "Gemfile.lock",
   .ok "GEMS\nspecs:\n  rails (7.0.0)\n  nokogiri (1.14.0)\n\nDEPENDENCIES\n  rails (= 7.0.0)",
   .error "not json", .error "not toml"⟩

/-- The maximal per-language count after the walk. -/
def maxLangCount (files : List String) : Nat :=
  ((langCounts files).map Prod.snd).foldl max 0

/-- A two-file Python project exercising both a manifest parse and the code
scanner. -/
def pyProject : List FileEntry :=
  [⟨"proj", "app.py", .ok "import flask\n", .error "not json", .error "not toml"⟩,
   ⟨"proj", "requirements.txt", .ok "flask==1.0\n", .error "not json",
    .error "not toml"⟩]

/-- A parsed-JSON state that is not a JSON object: either `json.load`
raised, or it returned a non-dict value. -/
def notAJsonObject : Except String JValue → Prop
  | .ok (.obj _) => False
  | _ => True

/-- A located yarn.lock file: its text is not valid JSON, so `json.load`
raises and the channel carries the exception message. -/
def yarnEntry : FileEntry :=
  ⟨"proj", "yarn.lock", .ok "# yarn lockfile v1\nlodash@^4.17.0:\n  version \"4.17.21\"",
   .error "Expecting value: line 1 column 1 (char 0)", .error "not toml"⟩


/-! ### Claim theorems -/

/-- C1: the claim states that for every valid namespaced POM the Java
manifest parser returns one record per `dependency` element with name
`groupId:artifactId`.  In the code, `ET` is never imported
(`xml.etree.ElementTree` does not appear in main.py's imports), so
`ET.parse` raises `NameError` on every `pom.xml`, the boundary handler
catches it, and the parser returns zero records — while the behaviour the
spec describes (`pomDependenciesSpec`) yields the expected record on the
same document. -/
theorem c1_pom_parser_yields_nothing :
    parse_java_file samplePomEntry = [] ∧
    pomDependenciesSpec samplePomXml =
      [⟨"org.demo:lib", some "1.0", "pom.xml"⟩] :=
  ⟨rfl, rfl⟩



/-- C2: the claim states that a per-file read failure never propagates past
the per-file parser or scanner boundary, in particular for the source-import
scanner.  The manifest parsers do catch everything (third conjunct), but
`extract_code_dependencies` has no exception handler: a read failure on a
single `.py` file propagates out of the scanner (first conjunct) and aborts
`main` with no report at all (second conjunct). -/
theorem c2_scanner_read_failure_propagates :
    extract_code_dependencies [unreadablePy] "Python" = .error .permission ∧
    main_report true [unreadablePy] = .error .permission ∧
    parse_python_file true unreadableReq = [] :=
  ⟨rfl, rfl, rfl⟩



/-- C3: the claim states that no record ever carries an empty-string
version, naming `flask==` and an empty-string `package.json` version as
cases where the invariant holds.  On exactly those inputs the code produces
`version = ""`: `re.split` yields `['flask', '']` and `''.strip()` is kept
verbatim, and the `package.json` value is copied unchanged. -/
theorem c3_empty_string_version_produced :
    parse_python_file true reqTrailingOp =
      [⟨"flask", some "", "requirements.txt"⟩] ∧
    parse_javascript_file pkgEmptyVersion =
      [⟨"left-pad", some "", "package.json"⟩] :=
  ⟨rfl, rfl⟩

/-! ### Deduplication lemmas (shared by the aggregator and pipeline claims) -/

theorem dedupDeps_sublist :
    ∀ (l : List DependencyRecord) (seen : List (String × String)),
      (dedupDeps seen l).Sublist l
  | [], _ => by simp [dedupDeps]
  | d :: rest, seen => by
    simp only [dedupDeps]
    split
    · exact (dedupDeps_sublist rest seen).cons d
    · exact (dedupDeps_sublist rest (depKey d :: seen)).cons₂ d

theorem mem_dedupDeps :
    ∀ (l : List DependencyRecord) (seen : List (String × String))
      (r : DependencyRecord),
      r ∈ dedupDeps seen l ↔
        depKey r ∉ seen ∧
        ∃ pre post, l = pre ++ r :: post ∧ ∀ x ∈ pre, depKey x ≠ depKey r
  | [], seen, r => by
    simp only [dedupDeps, List.not_mem_nil, false_iff]
    rintro ⟨-, pre, post, h, -⟩
    exact absurd h (by simp)
  | d :: rest, seen, r => by
    simp only [dedupDeps]
    split
    case isTrue hseen =>
      rw [mem_dedupDeps rest seen r]
      constructor
      · rintro ⟨hns, pre, post, hdec, hclean⟩
        refine ⟨hns, d :: pre, post, by simp [hdec], ?_⟩
        intro x hx
        rcases List.mem_cons.mp hx with rfl | hx'
        · intro h
          exact hns (h ▸ hseen)
        · exact hclean x hx'
      · rintro ⟨hns, pre, post, hdec, hclean⟩
        cases pre with
        | nil =>
          obtain ⟨rfl, -⟩ : d = r ∧ rest = post := by
            simpa using hdec
          exact absurd hseen hns
        | cons p pre' =>
          obtain ⟨rfl, hrest⟩ : d = p ∧ rest = pre' ++ r :: post := by
            simpa using hdec
          exact ⟨hns, pre', post, hrest,
            fun x hx => hclean x (List.mem_cons_of_mem _ hx)⟩
    case isFalse hseen =>
      simp only [List.mem_cons]
      rw [mem_dedupDeps rest (depKey d :: seen) r]
      constructor
      · rintro (rfl | ⟨hns, pre, post, hdec, hclean⟩)
        · exact ⟨hseen, [], rest, rfl, by simp⟩
        · have hkd : depKey r ≠ depKey d := fun h =>
            hns (h ▸ List.mem_cons_self _ _)
          refine ⟨fun h => hns (List.mem_cons_of_mem _ h), d :: pre, post,
            by simp [hdec], ?_⟩
          intro x hx
          rcases List.mem_cons.mp hx with rfl | hx'
          · exact fun h => hkd h.symm
          · exact hclean x hx'
      · rintro ⟨hns, pre, post, hdec, hclean⟩
        cases pre with
        | nil =>
          obtain ⟨rfl, -⟩ : d = r ∧ rest = post := by simpa using hdec
          exact Or.inl rfl
        | cons p pre' =>
          obtain ⟨rfl, hrest⟩ : d = p ∧ rest = pre' ++ r :: post := by
            simpa using hdec
          have hkd : depKey d ≠ depKey r :=
            hclean d (List.mem_cons_self _ _)
          refine Or.inr ⟨?_, pre', post, hrest,
            fun x hx => hclean x (List.mem_cons_of_mem _ hx)⟩
          intro h
          rcases List.mem_cons.mp h with h' | h'
          · exact hkd h'.symm
          · exact hns h'

theorem dedupDeps_nodup :
    ∀ (l : List DependencyRecord) (seen : List (String × String)),
      ((dedupDeps seen l).map depKey).Nodup ∧
      ∀ r ∈ dedupDeps seen l, depKey r ∉ seen
  | [], seen => by simp [dedupDeps]
  | d :: rest, seen => by
    simp only [dedupDeps]
    split
    case isTrue h => exact dedupDeps_nodup rest seen
    case isFalse h =>
      obtain ⟨ih1, ih2⟩ := dedupDeps_nodup rest (depKey d :: seen)
      constructor
      · simp only [List.map_cons, List.nodup_cons]
        refine ⟨?_, ih1⟩
        intro hmem
        obtain ⟨r, hr, hkey⟩ := List.mem_map.mp hmem
        exact (ih2 r hr) (hkey ▸ List.mem_cons_self _ _)
      · intro r hr
        rcases List.mem_cons.mp hr with rfl | hr'
        · exact h
        · exact fun hs => (ih2 r hr') (List.mem_cons_of_mem _ hs)

/-- C6: the aggregator outputs the concatenation (manifest records first,
then code records) deduplicated by `(name, source)`: the output is a
sublist of the concatenation (each kept record unchanged, relative order
preserved), its keys are pairwise distinct, and a record is kept exactly
when it is the first record of the concatenation carrying its key (every
later record with the same key is discarded). -/
theorem c6_aggregate_dedups_by_key (manifest code : List DependencyRecord) :
    (aggregate manifest code).Sublist (manifest ++ code) ∧
    ((aggregate manifest code).map depKey).Nodup ∧
    ∀ r, r ∈ aggregate manifest code ↔
      ∃ pre post, manifest ++ code = pre ++ r :: post ∧
        ∀ x ∈ pre, depKey x ≠ depKey r :=
  ⟨dedupDeps_sublist _ _, (dedupDeps_nodup _ _).1, fun r => by
    rw [aggregate, mem_dedupDeps]
    simp⟩

/-- Witness for C6 at concrete inputs: two manifest records and one code
record whose name collides with a manifest record but whose key differs. -/
theorem c6_aggregate_dedups_by_key_witness :
    (aggregate
        [⟨"lodash", some "4.17.0", "package.json"⟩,
         ⟨"lodash", some "3.0.0", "package.json"⟩]
        [⟨"lodash", none, "code"⟩] |>.Sublist
      ([⟨"lodash", some "4.17.0", "package.json"⟩,
        ⟨"lodash", some "3.0.0", "package.json"⟩] ++
       [⟨"lodash", none, "code"⟩])) ∧
    ((aggregate
        [⟨"lodash", some "4.17.0", "package.json"⟩,
         ⟨"lodash", some "3.0.0", "package.json"⟩]
        [⟨"lodash", none, "code"⟩]).map depKey).Nodup ∧
    ∀ r, r ∈ aggregate
        [⟨"lodash", some "4.17.0", "package.json"⟩,
         ⟨"lodash", some "3.0.0", "package.json"⟩]
        [⟨"lodash", none, "code"⟩] ↔
      ∃ pre post,
        ([⟨"lodash", some "4.17.0", "package.json"⟩,
          ⟨"lodash", some "3.0.0", "package.json"⟩] ++
         [DependencyRecord.mk "lodash" none "code"]) = pre ++ r :: post ∧
        ∀ x ∈ pre, depKey x ≠ depKey r :=
  c6_aggregate_dedups_by_key _ _

/-! ### Requirements-parser lemmas (C7) -/

/-- The per-line loop of the `requirements.txt` branch is the filterMap of
the per-line rule over the file's lines. -/
theorem parseReqLines_eq_filterMap (src : String) :
    ∀ lines : List String,
      parseReqLines src lines = lines.filterMap (reqLineRecord src)
  | [] => rfl
  | l :: ls => by
    rw [parseReqLines, List.filterMap_cons]
    cases h : reqLineRecord src l with
    | some r => rw [parseReqLines_eq_filterMap src ls]
    | none => rw [parseReqLines_eq_filterMap src ls]


/-- C7: the claimed three-line example yields exactly the two records in
declaration order (the comment line contributes nothing); in general the
parser is the per-line rule mapped over the lines, and every non-blank
non-comment line is split by `reqSplit` — the first occurrence of one of
`== >= <= > < ~= !=` — with the trimmed left part as name and the trimmed
right part as version. -/
theorem c7_requirements_rules :
    parse_python_file true reqExample =
      [⟨"flask", some "2.0.1", "requirements.txt"⟩,
       ⟨"requests", none, "requirements.txt"⟩] ∧
    (∀ (src : String) (lines : List String),
      parseReqLines src lines = lines.filterMap (reqLineRecord src)) ∧
    (∀ (src l : String), pyStrip l ≠ "" → ¬ pyStartsWith (pyStrip l) "#" →
      reqLineRecord src l =
        some ⟨pyStrip (reqSplit (pyStrip l)).1,
              ((reqSplit (pyStrip l)).2).map pyStrip, src⟩) := by
  refine ⟨rfl, parseReqLines_eq_filterMap, ?_⟩
  intro src l h1 h2
  simp only [reqLineRecord]
  rw [if_pos ⟨h1, h2⟩]
  cases h : reqSplit (pyStrip l) with
  | mk name over => cases over <;> simp

/-- Witness for C7's per-line rule at a concrete line with surrounding
whitespace and a two-character operator. -/
theorem c7_requirements_rules_witness :
    pyStrip " flask >= 1.2 " ≠ "" ∧
    ¬ pyStartsWith (pyStrip " flask >= 1.2 ") "#" ∧
    reqLineRecord "requirements.txt" " flask >= 1.2 " =
      some ⟨"flask", some "1.2", "requirements.txt"⟩ := by
  refine ⟨by decide, by decide, ?_⟩
  have h := c7_requirements_rules.2.2 "requirements.txt" " flask >= 1.2 "
    (by decide) (by decide)
  rw [h]
  rfl

/-! ### Gemfile.lock lemmas (C8) -/

/-- The claimed block evaluates the same way whatever follows the blank
line: the `break` leaves the loop for good. -/
theorem gemfileLock_example_block (rest : List String) :
    gemfileLockLines false
      ("GEMS" :: "specs:" :: "  rails (7.0.0)" :: "  nokogiri (1.14.0)" ::
        "" :: rest) =
      [⟨"rails", some "7.0.0", "Gemfile.lock"⟩,
       ⟨"nokogiri", some "1.14.0", "Gemfile.lock"⟩] := rfl


/-- C8: a `Gemfile.lock` whose lines are anything not containing a `GEMS`
line, then `GEMS`, `specs:`, the two indented gem lines, and a blank line
followed by arbitrary further lines, parses to exactly the two records in
order; nothing after the first blank line inside the `GEMS` block is ever
scanned.  The second conjunct runs the full parser on a concrete such file. -/
theorem c8_gemfile_lock_block (pre rest : List String)
    (hpre : ∀ l ∈ pre, pyStrip l ≠ "GEMS") :
    gemfileLockLines false
      (pre ++ "GEMS" :: "specs:" :: "  rails (7.0.0)" ::
        "  nokogiri (1.14.0)" :: "" :: rest) =
      [⟨"rails", some "7.0.0", "Gemfile.lock"⟩,
       ⟨"nokogiri", some "1.14.0", "Gemfile.lock"⟩] ∧
    parse_ruby_file lockExample =
      [⟨"rails", some "7.0.0", "Gemfile.lock"⟩,
       ⟨"nokogiri", some "1.14.0", "Gemfile.lock"⟩] := by
  refine ⟨?_, rfl⟩
  induction pre with
  | nil => exact gemfileLock_example_block rest
  | cons l pre ih =>
    have hl : (pyStrip l == "GEMS") = false := by
      rw [beq_eq_false_iff_ne]
      exact hpre l (List.mem_cons_self _ _)
    simp only [List.cons_append, gemfileLockLines, hl, Bool.false_and,
      Bool.false_eq_true, if_false]
    exact ih (fun x hx => hpre x (List.mem_cons_of_mem _ hx))

/-- Witness for C8 with a non-trivial head and tail around the block. -/
theorem c8_gemfile_lock_block_witness :
    (∀ l ∈ ["PLATFORMS", "  ruby"], pyStrip l ≠ "GEMS") ∧
    gemfileLockLines false
      (["PLATFORMS", "  ruby"] ++ "GEMS" :: "specs:" :: "  rails (7.0.0)" ::
        "  nokogiri (1.14.0)" :: "" :: ["DEPENDENCIES", "  rails (= 7.0.0)"]) =
      [⟨"rails", some "7.0.0", "Gemfile.lock"⟩,
       ⟨"nokogiri", some "1.14.0", "Gemfile.lock"⟩] :=
  ⟨by decide,
   (c8_gemfile_lock_block ["PLATFORMS", "  ruby"]
     ["DEPENDENCIES", "  rails (= 7.0.0)"] (by decide)).1⟩

/-! ### Java-import normalization lemmas (C4) -/

theorem dropWhile_head_false (p : Char → Bool) :
    ∀ (l : List Char) (c : Char) (t : List Char),
      l.dropWhile p = c :: t → p c = false
  | [], _, _, h => by simp [List.dropWhile] at h
  | a :: l, c, t, h => by
    rw [List.dropWhile_cons] at h
    split at h
    · exact dropWhile_head_false p l c t h
    · cases h
      rename_i hpa
      exact Bool.not_eq_true _ ▸ Bool.of_not_eq_true hpa

/-- Decomposition of `rsplit('.', 1)[0]`: a string containing a dot splits
as its `pyRsplitDot` prefix, a dot, and a dot-free final segment. -/
theorem rsplitDot_decomp (s : String) (h : '.' ∈ s.toList) :
    ∃ seg : List Char,
      s.toList = (pyRsplitDot s).toList ++ '.' :: seg ∧ '.' ∉ seg := by
  have hrev : '.' ∈ s.toList.reverse := List.mem_reverse.mpr h
  obtain ⟨c, t, hct⟩ :
      ∃ c t, s.toList.reverse.dropWhile (· != '.') = c :: t := by
    cases hcase : s.toList.reverse.dropWhile (· != '.') with
    | nil =>
      exfalso
      have h2 := List.dropWhile_eq_nil_iff.mp hcase '.' hrev
      simp at h2
    | cons c t => exact ⟨c, t, rfl⟩
  have hc : c = '.' := by
    have hfalse := dropWhile_head_false _ _ _ _ hct
    simpa using hfalse
  subst hc
  have hsplit :
      s.toList.reverse.takeWhile (· != '.') ++ ('.' :: t) =
        s.toList.reverse := by
    rw [← hct]
    exact List.takeWhile_append_dropWhile _ _
  refine ⟨(s.toList.reverse.takeWhile (· != '.')).reverse, ?_, ?_⟩
  · have hlist : s.toList =
        t.reverse ++ '.' :: (s.toList.reverse.takeWhile (· != '.')).reverse := by
      calc s.toList = s.toList.reverse.reverse := (List.reverse_reverse _).symm
        _ = (s.toList.reverse.takeWhile (· != '.') ++ ('.' :: t)).reverse := by
            rw [hsplit]
        _ = ('.' :: t).reverse ++
              (s.toList.reverse.takeWhile (· != '.')).reverse :=
            List.reverse_append _ _
        _ = t.reverse ++ '.' ::
              (s.toList.reverse.takeWhile (· != '.')).reverse := by
            simp [List.reverse_cons, List.append_assoc]
    have hrs : (pyRsplitDot s).toList = t.reverse := by
      unfold pyRsplitDot
      rw [hct]
      rfl
    rw [hrs]
    exact hlist
  · intro hmem
    have := List.mem_takeWhile_imp (List.mem_reverse.mp hmem)
    simp at this

/-- C4 counterexample: for the import statement `import java.util.List;`
the claim says the emitted token is the top-level segment `java`; the
scanner emits `java.util` instead (everything before the last dot). -/
theorem c4_counterexample_top_segment :
    extract_code_dependencies
        [⟨"src", "Main.java", .ok "package com.app;\nimport java.util.List;\n",
          .error "not json", .error "not toml"⟩] "Java" =
      .ok [⟨"java.util", none, "code"⟩] ∧
    DependencyRecord.name ⟨"java.util", none, "code"⟩ ≠ "java" :=
  ⟨rfl, by decide⟩

/-- C4 (amended): for every Java import statement whose imported name is a
dotted path, the source-import scanner emits the token normalized to the
portion of the dotted path before the LAST dot (the package prefix,
`rsplit('.', 1)[0]`), not the top-level segment: the matched import path
always decomposes as the emitted token, a dot, and a dot-free final
segment. -/
theorem c4_amended_before_last_dot (line tok : String)
    (h : javaLineDep line = some tok) :
    ∃ full : String, javaImportToken line = some full ∧
      '.' ∈ full.toList ∧
      ∃ seg : List Char,
        full.toList = tok.toList ++ '.' :: seg ∧ '.' ∉ seg := by
  unfold javaLineDep at h
  cases hit : javaImportToken line with
  | none => rw [hit] at h; exact absurd h (by simp)
  | some fc =>
    rw [hit] at h
    change (if fc.toList.contains '.' = true then some (pyRsplitDot fc)
      else none) = some tok at h
    by_cases hdot : fc.toList.contains '.' = true
    · rw [if_pos hdot] at h
      have htok : tok = pyRsplitDot fc := (Option.some.inj h).symm
      have hmem : '.' ∈ fc.toList := by simpa using hdot
      obtain ⟨seg, hseg, hnseg⟩ := rsplitDot_decomp fc hmem
      subst htok
      exact ⟨fc, rfl, hmem, seg, hseg, hnseg⟩
    · rw [if_neg hdot] at h
      exact absurd h (by simp)

/-- Witness for C4's amended statement at `import java.util.List;`. -/
theorem c4_amended_before_last_dot_witness :
    javaLineDep "import java.util.List;" = some "java.util" ∧
    ∃ full : String, javaImportToken "import java.util.List;" = some full ∧
      '.' ∈ full.toList ∧
      ∃ seg : List Char,
        full.toList = ("java.util" : String).toList ++ '.' :: seg ∧
        '.' ∉ seg :=
  ⟨by decide, c4_amended_before_last_dot _ _ (by decide)⟩

/-! ### Language-detection lemmas (C5) -/


theorem foldl_max_init : ∀ (l : List Nat) (a : Nat),
    l.foldl max a = max a (l.foldl max 0)
  | [], a => by simp
  | x :: l, a => by
    simp only [List.foldl_cons]
    rw [foldl_max_init l (max a x), foldl_max_init l (max 0 x)]
    simp [Nat.max_assoc, Nat.zero_max]

theorem foldl_max_le_sum : ∀ l : List Nat, l.foldl max 0 ≤ l.sum
  | [] => le_refl 0
  | x :: l => by
    simp only [List.foldl_cons, List.sum_cons]
    rw [foldl_max_init l (max 0 x)]
    have h1 := foldl_max_le_sum l
    rw [Nat.zero_max x]
    omega

theorem find?_cons_pos' {α : Type} (p : α → Bool) (a : α) (l : List α)
    (h : p a = true) : (a :: l).find? p = some a :=
  List.find?_cons_of_pos l h

theorem find?_cons_neg' {α : Type} (p : α → Bool) (a : α) (l : List α)
    (h : ¬ p a = true) : (a :: l).find? p = l.find? p :=
  List.find?_cons_of_neg l h

/-- The fold of Python's `max(counts, key=counts.get)` returns the first
entry whose count equals the maximum of all counts: ties are broken by
dictionary (declaration) order. -/
theorem pyMaxGo_find :
    ∀ (l : List (String × Nat)) (b : String × Nat) (m : Nat),
      m = ((b :: l).map Prod.snd).foldl max 0 →
      (b :: l).find? (fun q => q.2 == m) = some (pyMaxGo b l)
  | [], b, m, hm => by
    rw [find?_cons_pos' (fun q : String × Nat => q.2 == m) b [] (by simp [hm])]
    rfl
  | p :: l, b, m, hm => by
    have h1 : ((p :: l).map Prod.snd).foldl max 0 =
        max p.2 ((l.map Prod.snd).foldl max 0) := by
      simp only [List.map_cons, List.foldl_cons]
      rw [foldl_max_init (l.map Prod.snd) (max 0 p.2), Nat.zero_max p.2]
    have h2 : ((b :: l).map Prod.snd).foldl max 0 =
        max b.2 ((l.map Prod.snd).foldl max 0) := by
      simp only [List.map_cons, List.foldl_cons]
      rw [foldl_max_init (l.map Prod.snd) (max 0 b.2), Nat.zero_max b.2]
    have hF : m = max b.2 (((p :: l).map Prod.snd).foldl max 0) := by
      rw [hm, h1]
      simp only [List.map_cons, List.foldl_cons]
      rw [foldl_max_init (l.map Prod.snd) (max (max 0 b.2) p.2)]
      omega
    have hpF : p.2 ≤ ((p :: l).map Prod.snd).foldl max 0 := by
      rw [h1]
      exact Nat.le_max_left _ _
    by_cases hp : p.2 > b.2
    · have hm2 : m = ((p :: l).map Prod.snd).foldl max 0 := by
        rw [hF]
        omega
      have hb : ¬ ((fun q : String × Nat => q.2 == m) b = true) := by
        simp only [beq_iff_eq]
        omega
      rw [find?_cons_neg' (fun q : String × Nat => q.2 == m) b (p :: l) hb]
      have hgo : pyMaxGo b (p :: l) = pyMaxGo p l := by
        rw [pyMaxGo, if_pos hp]
      rw [hgo]
      exact pyMaxGo_find l p m hm2
    · have hm2 : m = ((b :: l).map Prod.snd).foldl max 0 := by
        rw [h2, hF, h1]
        omega
      have hgo : pyMaxGo b (p :: l) = pyMaxGo b l := by
        rw [pyMaxGo, if_neg hp]
      rw [hgo]
      have ih := pyMaxGo_find l b m hm2
      by_cases hb : ((fun q : String × Nat => q.2 == m) b = true)
      · rw [find?_cons_pos' (fun q : String × Nat => q.2 == m) b (p :: l) hb]
        rw [find?_cons_pos' (fun q : String × Nat => q.2 == m) b l hb] at ih
        exact ih
      · have hbF : b.2 ≤ m := by
          rw [hF]
          exact Nat.le_max_left _ _
        have hbne : b.2 ≠ m := by
          intro he
          exact hb (by simpa using he)
        have hp2 : ¬ ((fun q : String × Nat => q.2 == m) p = true) := by
          simp only [beq_iff_eq]
          omega
        rw [find?_cons_neg' (fun q : String × Nat => q.2 == m) b (p :: l) hb,
            find?_cons_neg' (fun q : String × Nat => q.2 == m) p l hp2]
        rw [find?_cons_neg' (fun q : String × Nat => q.2 == m) b l hb] at ih
        exact ih

theorem find?_map_eq (files : List String) (m : Nat) :
    ∀ tbl : List (String × List String),
      ((tbl.map (fun p => (p.1, langCount files p.2))).find?
          (fun q => q.2 == m)).map Prod.fst =
        (tbl.find? (fun p => langCount files p.2 == m)).map Prod.fst
  | [] => rfl
  | p :: tbl => by
    by_cases h : (langCount files p.2 == m) = true
    · rw [List.map_cons,
        find?_cons_pos' (fun q : String × Nat => q.2 == m)
          (p.1, langCount files p.2) _ h,
        find?_cons_pos' (fun q : String × List String =>
          langCount files q.2 == m) p tbl h]
      rfl
    · rw [List.map_cons,
        find?_cons_neg' (fun q : String × Nat => q.2 == m)
          (p.1, langCount files p.2) _ h,
        find?_cons_neg' (fun q : String × List String =>
          langCount files q.2 == m) p tbl h]
      exact find?_map_eq files m tbl

theorem pyMaxFirst_eq_find :
    ∀ (L : List (String × Nat)) (m : Nat), L ≠ [] →
      m = (L.map Prod.snd).foldl max 0 →
      pyMaxFirst L = (L.find? (fun q => q.2 == m)).map Prod.fst
  | [], _, hne, _ => absurd rfl hne
  | b :: l, m, _, hm => by
    rw [pyMaxFirst, pyMaxGo_find l b m hm]
    rfl

/-- When some count is positive, `detect_language` is the first table entry
attaining the maximal count. -/
theorem detect_language_eq_find (files : List String)
    (hpos : 0 < maxLangCount files) :
    detect_language files =
      (languageExtensions.find?
        (fun p => langCount files p.2 == maxLangCount files)).map Prod.fst := by
  have hsum : ¬ ((sumCounts files == 0) = true) := by
    have hle := foldl_max_le_sum ((langCounts files).map Prod.snd)
    rw [maxLangCount] at hpos
    simp only [sumCounts, beq_iff_eq]
    omega
  calc detect_language files
      = pyMaxFirst (langCounts files) := by
        rw [detect_language, if_neg hsum]
    _ = ((langCounts files).find?
          (fun q => q.2 == maxLangCount files)).map Prod.fst :=
        pyMaxFirst_eq_find _ _ (by simp [langCounts, languageExtensions])
          (by rw [maxLangCount])
    _ = (languageExtensions.find?
          (fun p => langCount files p.2 == maxLangCount files)).map Prod.fst :=
        find?_map_eq files (maxLangCount files) languageExtensions

/-- `detect_language` depends only on the multiset of walked filenames. -/
theorem detect_language_perm (files files' : List String)
    (h : files.Perm files') :
    detect_language files = detect_language files' := by
  have hcount : ∀ exts : List String,
      langCount files exts = langCount files' exts :=
    fun _ => h.countP_eq _
  have hlc : langCounts files = langCounts files' := by
    simp only [langCounts, hcount]
  simp only [detect_language, sumCounts, hlc]

/-- C5: when two distinct languages are tied for the positive maximal
extension count, `detect_language` returns the first table entry attaining
the maximum — the language declared earliest in `languageExtensions` — and
the result depends only on the multiset of file extensions (it is invariant
under permutation of the walk, hence deterministic across runs). -/
theorem c5_tie_break_first_declared (files files' : List String)
    (hperm : files.Perm files') (l₁ l₂ : String) (e₁ e₂ : List String)
    (h₁ : (l₁, e₁) ∈ languageExtensions) (h₂ : (l₂, e₂) ∈ languageExtensions)
    (hne : l₁ ≠ l₂)
    (hm₁ : langCount files e₁ = maxLangCount files)
    (hm₂ : langCount files e₂ = maxLangCount files)
    (hpos : 0 < maxLangCount files) :
    detect_language files =
      (languageExtensions.find?
        (fun p => langCount files p.2 == maxLangCount files)).map Prod.fst ∧
    detect_language files = detect_language files' :=
  ⟨detect_language_eq_find files hpos, detect_language_perm files files' hperm⟩

/-- Witness for C5: a walk with one Python file and one JavaScript file is a
positive two-way tie, resolved to `Python` (declared first), under either
walk order. -/
theorem c5_tie_break_first_declared_witness :
    (["a.py", "b.js"] : List String).Perm ["b.js", "a.py"] ∧
    ("Python", [".py"]) ∈ languageExtensions ∧
    ("JavaScript", [".js", ".jsx"]) ∈ languageExtensions ∧
    ("Python" : String) ≠ "JavaScript" ∧
    langCount ["a.py", "b.js"] [".py"] = maxLangCount ["a.py", "b.js"] ∧
    langCount ["a.py", "b.js"] [".js", ".jsx"] = maxLangCount ["a.py", "b.js"] ∧
    0 < maxLangCount ["a.py", "b.js"] ∧
    (detect_language ["a.py", "b.js"] =
      (languageExtensions.find?
        (fun p => langCount ["a.py", "b.js"] p.2 ==
          maxLangCount ["a.py", "b.js"])).map Prod.fst ∧
     detect_language ["a.py", "b.js"] = detect_language ["b.js", "a.py"]) ∧
    detect_language ["a.py", "b.js"] = some "Python" :=
  ⟨by decide, by decide, by decide, by decide, by decide, by decide, by decide,
   c5_tie_break_first_declared ["a.py", "b.js"] ["b.js", "a.py"] (by decide)
     "Python" "JavaScript" [".py"] [".js", ".jsx"] (by decide) (by decide)
     (by decide) (by decide) (by decide) (by decide),
   by decide⟩

/-! ### Record-source lemmas (C9, C10): which `source` tags each stage can
produce -/

theorem reqLineRecord_source (src l : String) (r : DependencyRecord)
    (h : reqLineRecord src l = some r) : r.source = src := by
  simp only [reqLineRecord] at h
  split at h
  · cases hs : reqSplit (pyStrip l) with
    | mk name over =>
      rw [hs] at h
      cases over with
      | some v =>
        obtain rfl := Option.some.inj h
        rfl
      | none =>
        obtain rfl := Option.some.inj h
        rfl
  · exact absurd h (by simp)

theorem parseReqLines_source (src : String) (lines : List String)
    (r : DependencyRecord) (h : r ∈ parseReqLines src lines) :
    r.source = src := by
  rw [parseReqLines_eq_filterMap] at h
  obtain ⟨l, -, hl⟩ := List.mem_filterMap.mp h
  exact reqLineRecord_source src l r hl

theorem pyprojectDeps_source (src : String) :
    ∀ (deps : List (String × TValue)) (r : DependencyRecord),
      r ∈ pyprojectDeps src deps → r.source = src
  | [], r, h => absurd h (by simp [pyprojectDeps])
  | (nm, spec) :: rest, r, h => by
    rw [pyprojectDeps] at h
    split at h
    · exact pyprojectDeps_source src rest r h
    · rcases List.mem_cons.mp h with rfl | h'
      · rfl
      · exact pyprojectDeps_source src rest r h'

theorem pipfileEntries_source (src : String) :
    ∀ (deps : List (String × TValue)) (r : DependencyRecord),
      r ∈ pipfileEntries src deps → r.source = src
  | [], r, h => absurd h (by simp [pipfileEntries])
  | (nm, spec) :: rest, r, h => by
    rw [pipfileEntries] at h
    rcases List.mem_cons.mp h with rfl | h'
    · rfl
    · exact pipfileEntries_source src rest r h'

theorem pipfileSections_source (src : String) (data : List (String × TValue)) :
    ∀ (secs : List String) (acc : List DependencyRecord),
      (∀ r ∈ acc, DependencyRecord.source r = src) →
      ∀ r ∈ pipfileSections src data secs acc, r.source = src
  | [], acc, hacc => hacc
  | sec :: rest, acc, hacc => by
    rw [pipfileSections]
    split
    · apply pipfileSections_source src data rest
      intro r hr
      rcases List.mem_append.mp hr with h | h
      · exact hacc r h
      · rename_i deps heq
        exact pipfileEntries_source src deps r h
    · exact hacc

theorem gemfileLines_source (src : String) :
    ∀ (lines : List String) (r : DependencyRecord),
      r ∈ gemfileLines src lines → r.source = src
  | [], r, h => absurd h (by simp [gemfileLines])
  | l :: ls, r, h => by
    rw [gemfileLines] at h
    split at h
    · split at h
      · rcases List.mem_cons.mp h with rfl | h'
        · rfl
        · exact gemfileLines_source src ls r h'
      · exact gemfileLines_source src ls r h
    · exact gemfileLines_source src ls r h

theorem gemfileLockLines_source :
    ∀ (b : Bool) (lines : List String) (r : DependencyRecord),
      r ∈ gemfileLockLines b lines → r.source = "Gemfile.lock"
  | _, [], r, h => absurd h (by simp [gemfileLockLines])
  | b, l :: ls, r, h => by
    rw [gemfileLockLines] at h
    split at h
    · exact gemfileLockLines_source true ls r h
    · split at h
      · exact gemfileLockLines_source b ls r h
      · split at h
        · exact absurd h (by simp)
        · split at h
          · split at h
            · rcases List.mem_cons.mp h with rfl | h'
              · rfl
              · exact gemfileLockLines_source b ls r h'
            · exact gemfileLockLines_source b ls r h
          · exact gemfileLockLines_source b ls r h

theorem gradleLines_source (src : String) :
    ∀ (lines : List String) (r : DependencyRecord),
      r ∈ gradleLines src lines → r.source = src
  | [], r, h => absurd h (by simp [gradleLines])
  | l :: ls, r, h => by
    rw [gradleLines] at h
    split at h
    · rcases List.mem_cons.mp h with rfl | h'
      · rfl
      · exact gradleLines_source src ls r h'
    · exact gradleLines_source src ls r h

theorem goModLines_source :
    ∀ (b : Bool) (lines : List String) (r : DependencyRecord),
      r ∈ goModLines b lines → r.source = "go.mod"
  | _, [], r, h => absurd h (by simp [goModLines])
  | b, l :: ls, r, h => by
    rw [goModLines] at h
    split at h
    · split at h
      · exact goModLines_source false ls r h
      · split at h
        · split at h
          · rcases List.mem_cons.mp h with rfl | h'
            · rfl
            · exact goModLines_source true ls r h'
          · exact goModLines_source true ls r h
        · exact goModLines_source true ls r h
    · split at h
      · exact goModLines_source true ls r h
      · split at h
        · split at h
          · rcases List.mem_cons.mp h with rfl | h'
            · rfl
            · exact goModLines_source false ls r h'
          · exact goModLines_source false ls r h
        · exact goModLines_source false ls r h

theorem cargoEntries_source :
    ∀ (deps : List (String × TValue)) (r : DependencyRecord),
      r ∈ cargoEntries deps → r.source = "Cargo.toml"
  | [], r, h => absurd h (by simp [cargoEntries])
  | (nm, spec) :: rest, r, h => by
    rw [cargoEntries] at h
    rcases List.mem_cons.mp h with rfl | h'
    · rfl
    · exact cargoEntries_source rest r h'

theorem cargoSections_source (data : List (String × TValue)) :
    ∀ (secs : List String) (acc : List DependencyRecord),
      (∀ r ∈ acc, DependencyRecord.source r = "Cargo.toml") →
      ∀ r ∈ cargoSections data secs acc, r.source = "Cargo.toml"
  | [], acc, hacc => hacc
  | sec :: rest, acc, hacc => by
    rw [cargoSections]
    split
    · apply cargoSections_source data rest
      intro r hr
      rcases List.mem_append.mp hr with h | h
      · exact hacc r h
      · rename_i deps heq
        exact cargoEntries_source deps r h
    · exact hacc

theorem jsEntries_source (src : String) :
    ∀ (deps : List (String × JValue)) (r : DependencyRecord),
      r ∈ jsEntries src deps → r.source = src
  | [], r, h => absurd h (by simp [jsEntries])
  | (nm, v) :: rest, r, h => by
    rw [jsEntries] at h
    rcases List.mem_cons.mp h with rfl | h'
    · rfl
    · exact jsEntries_source src rest r h'

theorem jsSections_source (src : String) (fields : List (String × JValue)) :
    ∀ (secs : List String) (acc : List DependencyRecord),
      (∀ r ∈ acc, DependencyRecord.source r = src) →
      ∀ r ∈ jsSections src fields secs acc, r.source = src
  | [], acc, hacc => hacc
  | sec :: rest, acc, hacc => by
    rw [jsSections]
    split
    · exact jsSections_source src fields rest acc hacc
    · apply jsSections_source src fields rest
      intro r hr
      rcases List.mem_append.mp hr with h | h
      · exact hacc r h
      · rename_i d heq
        exact jsEntries_source src d r h
    · exact hacc

theorem parse_python_file_source (tomlOk : Bool) (fe : FileEntry) :
    ∀ r ∈ parse_python_file tomlOk fe, r.source = fe.name := by
  intro r h
  unfold parse_python_file at h
  split at h
  · split at h
    · exact absurd h (by simp)
    · exact parseReqLines_source fe.name _ r h
  · split at h
    · split at h
      · exact absurd h (by simp)
      · split at h
        · split at h
          · split at h
            · exact pyprojectDeps_source fe.name _ r h
            · exact absurd h (by simp)
          · exact absurd h (by simp)
        · exact absurd h (by simp)
    · split at h
      · split at h
        · exact absurd h (by simp)
        · exact pipfileSections_source fe.name _ _ [] (by simp) r h
      · exact absurd h (by simp)

theorem parse_ruby_file_source (fe : FileEntry) :
    ∀ r ∈ parse_ruby_file fe, r.source = fe.name := by
  intro r h
  unfold parse_ruby_file at h
  split at h
  · split at h
    · exact absurd h (by simp)
    · exact gemfileLines_source fe.name _ r h
  · split at h
    case isTrue hname =>
      split at h
      · exact absurd h (by simp)
      · rw [gemfileLockLines_source false _ r h]
        exact (beq_iff_eq.mp hname).symm
    case isFalse => exact absurd h (by simp)

theorem parse_java_file_source (fe : FileEntry) :
    ∀ r ∈ parse_java_file fe, r.source = fe.name := by
  intro r h
  unfold parse_java_file at h
  split at h
  · exact absurd h (by simp)
  · split at h
    · split at h
      · exact absurd h (by simp)
      · exact gradleLines_source fe.name _ r h
    · exact absurd h (by simp)

theorem parse_go_mod_source (fe : FileEntry) :
    ∀ r ∈ parse_go_mod fe, r.source = "go.mod" := by
  intro r h
  unfold parse_go_mod at h
  split at h
  · exact absurd h (by simp)
  · exact goModLines_source false _ r h

theorem parse_rust_source (tomlOk : Bool) (fe : FileEntry) :
    ∀ r ∈ parse_rust_cargo_toml tomlOk fe, r.source = "Cargo.toml" := by
  intro r h
  unfold parse_rust_cargo_toml at h
  split at h
  · exact absurd h (by simp)
  · split at h
    · exact absurd h (by simp)
    · exact cargoSections_source _ _ [] (by simp) r h

theorem parse_javascript_file_source (fe : FileEntry) :
    ∀ r ∈ parse_javascript_file fe, r.source = fe.name := by
  intro r h
  unfold parse_javascript_file at h
  split at h
  · exact absurd h (by simp)
  · exact jsSections_source fe.name _ _ [] (by simp) r h
  · exact absurd h (by simp)

/-- Every record a manifest parse can contribute carries either the parsed
file's basename or one of the two hard-coded source tags. -/
theorem parse_dependency_file_source (tomlOk : Bool) (fe : FileEntry)
    (language : String) :
    ∀ r ∈ parse_dependency_file tomlOk fe language,
      r.source = fe.name ∨ r.source = "go.mod" ∨ r.source = "Cargo.toml" := by
  intro r h
  unfold parse_dependency_file at h
  split at h
  · exact Or.inl (parse_python_file_source tomlOk fe r h)
  · split at h
    · exact Or.inl (parse_javascript_file_source fe r h)
    · split at h
      · exact Or.inr (Or.inl (parse_go_mod_source fe r h))
      · split at h
        · exact Or.inr (Or.inr (parse_rust_source tomlOk fe r h))
        · split at h
          · exact Or.inl (parse_ruby_file_source fe r h)
          · split at h
            · exact Or.inl (parse_java_file_source fe r h)
            · exact absurd h (by simp)

/-- Every record the source-import scanner contributes is tagged `code`. -/
theorem extract_code_source (fs : List FileEntry) (language : String)
    (recs : List DependencyRecord)
    (h : extract_code_dependencies fs language = .ok recs) :
    ∀ r ∈ recs, r.source = "code" := by
  unfold extract_code_dependencies at h
  split at h
  · exact absurd h (by simp)
  · obtain rfl := Except.ok.inj h
    intro r hr
    obtain ⟨n, -, rfl⟩ := List.mem_map.mp hr
    rfl

theorem lookupField_mem {α : Type} (k : String) :
    ∀ (l : List (String × α)) (v : α),
      lookupField k l = some v → ∃ k', (k', v) ∈ l
  | [], v, h => absurd h (by simp [lookupField])
  | (k', v') :: rest, v, h => by
    rw [lookupField] at h
    split at h
    · exact ⟨k', by simp [Option.some.inj h]⟩
    · obtain ⟨k'', hk⟩ := lookupField_mem k rest v h
      exact ⟨k'', List.mem_cons_of_mem _ hk⟩

/-- No language's manifest table registers `Gemfile.lock` (Ruby registers
only `Gemfile`). -/
theorem manifestTargets_no_lock (language : String) :
    "Gemfile.lock" ∉ manifestTargets language := by
  unfold manifestTargets
  cases h : lookupField language dependency_files_map with
  | none => simp
  | some ts =>
    obtain ⟨k, hk⟩ := lookupField_mem language dependency_files_map ts h
    fin_cases hk <;> decide

theorem mem_find_dependency_files (fs : List FileEntry) (language : String)
    (fe : FileEntry) (h : fe ∈ find_dependency_files fs language) :
    fe.name ∈ manifestTargets language := by
  unfold find_dependency_files at h
  exact of_decide_eq_true (List.mem_filter.mp h).2

/-- C9: the manifest locator never returns a file named `Gemfile.lock` (no
language's registered manifest set contains it), so the pipeline never
reaches the `Gemfile.lock` parsing branch and no record of any produced
report carries the source `Gemfile.lock`. -/
theorem c9_no_gemfile_lock_records :
    (∀ (fs : List FileEntry) (language : String) (fe : FileEntry),
        fe ∈ find_dependency_files fs language → fe.name ≠ "Gemfile.lock") ∧
    (∀ (tomlOk : Bool) (fs : List FileEntry) (rep : Report),
        main_report tomlOk fs = .ok (some rep) →
        ∀ r ∈ rep.dependencies, r.source ≠ "Gemfile.lock") := by
  constructor
  · intro fs language fe h he
    exact manifestTargets_no_lock language
      (he ▸ mem_find_dependency_files fs language fe h)
  · intro tomlOk fs rep h r hr
    unfold main_report at h
    split at h
    · exact absurd (Except.ok.inj h) (by simp)
    · rename_i lang hdet
      split at h
      · exact absurd h (by simp)
      · rename_i codeDeps hex
        obtain rfl := Option.some.inj (Except.ok.inj h)
        have hmem : r ∈
            ((find_dependency_files fs lang).map
              (fun fe => parse_dependency_file tomlOk fe lang)).flatten ++
              codeDeps :=
          (dedupDeps_sublist _ []).subset hr
        rcases List.mem_append.mp hmem with hm | hc
        · obtain ⟨lrec, hlrec, hrin⟩ := List.mem_flatten.mp hm
          obtain ⟨fe, hfe, rfl⟩ := List.mem_map.mp hlrec
          rcases parse_dependency_file_source tomlOk fe lang r hrin with
            h1 | h1 | h1
          · rw [h1]
            intro he
            exact manifestTargets_no_lock lang
              (he ▸ mem_find_dependency_files fs lang fe hfe)
          · rw [h1]; decide
          · rw [h1]; decide
        · rw [extract_code_source fs lang codeDeps hex r hc]
          decide


/-- Witness for C9 on a concrete project whose report has both a manifest
record and a code record. -/
theorem c9_no_gemfile_lock_records_witness :
    (⟨"proj", "requirements.txt", .ok "flask==1.0\n", .error "not json",
        .error "not toml"⟩ : FileEntry) ∈ find_dependency_files pyProject "Python" ∧
    main_report true pyProject =
      .ok (some ⟨"Python",
        [⟨"flask", some "1.0", "requirements.txt"⟩, ⟨"flask", none, "code"⟩]⟩) ∧
    (∀ r ∈ ([⟨"flask", some "1.0", "requirements.txt"⟩,
        ⟨"flask", none, "code"⟩] : List DependencyRecord),
      r.source ≠ "Gemfile.lock") ∧
    (⟨"proj", "requirements.txt", .ok "flask==1.0\n", .error "not json",
        .error "not toml"⟩ : FileEntry).name ≠ "Gemfile.lock" := by
  have hmem : (⟨"proj", "requirements.txt", .ok "flask==1.0\n",
      .error "not json", .error "not toml"⟩ : FileEntry) ∈
        find_dependency_files pyProject "Python" := by
    rw [find_dependency_files, pyProject]
    refine List.mem_filter.mpr ⟨?_, by decide⟩
    exact List.mem_cons_of_mem _ (List.mem_cons_self _ _)
  refine ⟨hmem, by rfl, ?_, ?_⟩
  · exact c9_no_gemfile_lock_records.2 true pyProject _ (by rfl)
  · exact c9_no_gemfile_lock_records.1 pyProject "Python" _ hmem


/-- C10: the JavaScript manifest table registers `yarn.lock`, a located file
of that name is routed to the JSON-based `parse_javascript_file`, and every
file whose content is not a valid JSON object (as a standard yarn.lock is
not) contributes zero records. -/
theorem c10_yarn_lock_contributes_nothing :
    "yarn.lock" ∈ manifestTargets "JavaScript" ∧
    (∀ (tomlOk : Bool) (fe : FileEntry),
      parse_dependency_file tomlOk fe "JavaScript" = parse_javascript_file fe) ∧
    (∀ (fs : List FileEntry) (fe : FileEntry), fe ∈ fs →
      fe.name = "yarn.lock" → fe ∈ find_dependency_files fs "JavaScript") ∧
    (∀ fe : FileEntry, notAJsonObject fe.json →
      parse_javascript_file fe = []) := by
  refine ⟨by decide, fun tomlOk fe => rfl, ?_, ?_⟩
  · intro fs fe hmem hname
    unfold find_dependency_files
    refine List.mem_filter.mpr ⟨hmem, ?_⟩
    rw [hname]
    decide
  · intro fe hj
    unfold parse_javascript_file
    unfold notAJsonObject at hj
    cases hcase : fe.json with
    | error e => simp
    | ok v =>
      rw [hcase] at hj
      cases v with
      | obj fields => exact absurd hj (by simp)
      | arr items => simp
      | str s => simp
      | num n => simp
      | bool b => simp
      | null => simp


/-- Witness for C10 on a concrete yarn.lock file. -/
theorem c10_yarn_lock_contributes_nothing_witness :
    notAJsonObject yarnEntry.json ∧
    yarnEntry ∈ [yarnEntry] ∧
    yarnEntry.name = "yarn.lock" ∧
    yarnEntry ∈ find_dependency_files [yarnEntry] "JavaScript" ∧
    parse_javascript_file yarnEntry = [] := by
  refine ⟨trivial, List.mem_singleton.mpr rfl, rfl, ?_, ?_⟩
  · exact c10_yarn_lock_contributes_nothing.2.2.1 [yarnEntry] yarnEntry
      (List.mem_singleton.mpr rfl) rfl
  · exact c10_yarn_lock_contributes_nothing.2.2.2 yarnEntry trivial

end DepScan
